import Mathlib

/-!
Shallow embedding of the gomdoc core pipeline (renderer and scanner packages)
over `List Char` strings, together with proofs checking the specification's
claims about frontmatter parsing, link rewriting, directory scanning,
navigation-tree building and tree rendering.

Strings are embedded as `List Char`; all functions are executable and mirror
the Go source line by line (Go's byte strings are ASCII in every input the
claims touch, so rune/byte distinctions do not arise).
-/

namespace Gomdoc

/-- Characters of a string literal. -/
def chars (s : String) : List Char := s.toList

/-- Go `strings.HasPrefix` (on `List Char`). -/
def startsW (s p : List Char) : Bool := p.isPrefixOf s

/-- Go `strings.HasSuffix` (on `List Char`). -/
def endsW (s p : List Char) : Bool := p.isSuffixOf s

/-- Go `strings.TrimSuffix`: drops `p` from the end of `s` when present. -/
def trimSuf (s p : List Char) : List Char :=
  if endsW s p then s.take (s.length - p.length) else s

/-- Go `strings.ToLower`, restricted to ASCII case mapping (the only case
mapping exercised by the repository's inputs). -/
def toLowerL (s : List Char) : List Char := s.map Char.toLower

/-- Whitespace set of Go `unicode.IsSpace` (as used by `strings.TrimSpace`). -/
def isSpaceCh (c : Char) : Bool :=
  c == ' ' || c == '\t' || c == '\n' || c == '\x0b' || c == '\x0c' || c == '\r' ||
  c == '\u0085' || c == ' '

/-- Go `strings.TrimSpace`. -/
def trimSpaceL (s : List Char) : List Char :=
  ((s.dropWhile isSpaceCh).reverse.dropWhile isSpaceCh).reverse

/-- Quote characters: the cutset `"\"'"` of the frontmatter value trim. -/
def isQuoteCh (c : Char) : Bool := c == '"' || c == '\''

/-- Go `strings.Trim(s, "\"'")`: removes ALL leading and trailing quote
characters (single or double, in any mix). -/
def trimQuotesL (s : List Char) : List Char :=
  ((s.dropWhile isQuoteCh).reverse.dropWhile isQuoteCh).reverse

/-- Go `strings.Index` (first occurrence of `p` in `s`), `none` for Go's -1. -/
def findSub (s p : List Char) : Option Nat :=
  match s with
  | [] => if p.isPrefixOf [] then some 0 else none
  | a :: t => if p.isPrefixOf (a :: t) then some 0 else (findSub t p).map (· + 1)

/-- Go `strings.Split` with a one-character separator. -/
def splitOnC (c : Char) (s : List Char) : List (List Char) :=
  match s with
  | [] => [[]]
  | a :: t =>
    if a = c then [] :: splitOnC c t
    else
      match splitOnC c t with
      | [] => [[a]]
      | h :: r => (a :: h) :: r

/-- Frontmatter record of the renderer package. -/
structure Frontmatter where
  title : List Char
  author : List Char
deriving DecidableEq, Repr

/-- The zero `Frontmatter{}` value. -/
def emptyFm : Frontmatter := ⟨[], []⟩

/-- One iteration of `ParseFrontmatter`'s key/value loop: trim the line, skip
blanks, split at the first colon, trim the key and value, strip quotes from
the value, and assign `title`/`author` (other keys ignored). -/
def applyLine (fm : Frontmatter) (line : List Char) : Frontmatter :=
  let l := trimSpaceL line
  if l.isEmpty then fm
  else
    match findSub l (chars ":") with
    | none => fm
    | some i =>
      let key := trimSpaceL (l.take i)
      let value := trimQuotesL (trimSpaceL (l.drop (i + 1)))
      if toLowerL key = chars "title" then { fm with title := value }
      else if toLowerL key = chars "author" then { fm with author := value }
      else fm

/-- The key/value parsing loop of `ParseFrontmatter` over a frontmatter block
(the text strictly between the delimiters), split on newlines. -/
def parseBlock (block : List Char) : Frontmatter :=
  (splitOnC '\n' block).foldl applyLine emptyFm

/-- The tail end of `ParseFrontmatter`: after skipping the 4 bytes `"\n---"`,
one further line terminator (`"\r\n"` or `"\n"`) is consumed if present. -/
def stripTerm (s : List Char) : List Char :=
  if startsW s (chars "\r\n") then s.drop 2
  else if startsW s (chars "\n") then s.drop 1
  else s

/-- Model of `renderer.ParseFrontmatter`: recognizes a leading `---` delimiter line,
locates the closing delimiter by searching for the substring `"\n---"`, parses
the block between them, and returns the remaining content. -/
def parseFrontmatter (content : List Char) : Frontmatter × List Char :=
  if !(startsW content (chars "---\n")) && !(startsW content (chars "---\r\n")) then
    (emptyFm, content)
  else
    let off : Nat := if startsW content (chars "---\r\n") then 5 else 4
    match findSub (content.drop off) (chars "\n---") with
    | none => (emptyFm, content)
    | some i =>
      let fmBlock := (content.drop off).take i
      let fm := parseBlock fmBlock
      let rem := content.drop (i + off + 4)
      (fm, stripTerm rem)

/-! ### Path cleaning (Go `path.Clean` / `path.Join`) -/

/-- Join a list of segments with `/` (inverse of splitting). -/
def joinSlash : List (List Char) → List Char
  | [] => []
  | [s] => s
  | s :: rest => s ++ '/' :: joinSlash rest

/-- One step of `path.Clean`'s element processing: empty and `.` elements are
dropped, `..` cancels the preceding element (except leading `..` in a relative
path, which is kept, and leading `..` in a rooted path, which is dropped). -/
def cleanStep (rooted : Bool) (stack : List (List Char)) (seg : List Char) :
    List (List Char) :=
  if seg.isEmpty || seg = chars "." then stack
  else if seg = chars ".." then
    match stack with
    | [] => if rooted then [] else [chars ".."]
    | top :: rest => if top = chars ".." then chars ".." :: top :: rest else rest
  else seg :: stack

/-- Go `path.Clean` over slash-separated paths. -/
def pathClean (p : List Char) : List Char :=
  let rooted := startsW p (chars "/")
  let stack := (splitOnC '/' p).foldl (cleanStep rooted) []
  let body := joinSlash stack.reverse
  if rooted then
    if body.isEmpty then chars "/" else '/' :: body
  else
    if body.isEmpty then chars "." else body

/-- Model of `renderer.resolveLink`: root-relative targets lose their slash; otherwise
relative targets are joined onto the current directory and cleaned
(`path.Join(currentDir, linkPath)` = `path.Clean(currentDir + "/" + linkPath)`
for the nonempty arguments that occur here). -/
def resolveLink (linkPath currentDir : List Char) : List Char :=
  if startsW linkPath (chars "/") then linkPath.drop 1
  else if currentDir.isEmpty || currentDir = chars "." then linkPath
  else pathClean (currentDir ++ '/' :: linkPath)

/-! ### Link rewriting (`renderer.RewriteLinks`)

The Go regexp `href="([^"]*\.(?:md|MD))"` matches, at a given position, the
literal `href="`, then the maximal run of non-quote characters, then a closing
quote, succeeding exactly when that run ends in `.md` or `.MD`; the run is the
capture group. `ReplaceAllFunc` replaces successive non-overlapping leftmost
matches. `tryMatch` decides whether a match starts at the head of `s` and
returns the capture and the text after the match. -/

/-- Match attempt of `linkPattern` at the head of `s`. -/
def tryMatch (s : List Char) : Option (List Char × List Char) :=
  if startsW s (chars "href=\"") then
    let rest := s.drop 6
    let t := rest.takeWhile (fun c => c != '"')
    if rest.length ≤ t.length then none
    else if endsW t (chars ".md") || endsW t (chars ".MD") then
      some (t, rest.drop (t.length + 1))
    else none
  else none

/-- The final route for a non-external matched target: resolve, strip one
trailing `.md` (then `.MD`), and root with `/` if needed. -/
def finalRoute (linkPath currentDir : List Char) : List Char :=
  let r := trimSuf (trimSuf (resolveLink linkPath currentDir) (chars ".md")) (chars ".MD")
  if startsW r (chars "/") then r else '/' :: r

/-- The replacement `RewriteLinks` produces for one matched attribute whose
captured target is `linkPath`: external targets reproduce the match verbatim,
others become `href="` + route + `"`. -/
def rewriteTarget (linkPath currentDir : List Char) : List Char :=
  if startsW linkPath (chars "http://") || startsW linkPath (chars "https://") then
    chars "href=\"" ++ linkPath ++ ['"']
  else
    chars "href=\"" ++ finalRoute linkPath currentDir ++ ['"']

/-- Fueled left-to-right scan performing `ReplaceAllFunc`: at each position the
pattern is tried; a match is replaced and the scan resumes after it, otherwise
one character is emitted unchanged. Fuel `s.length` always suffices since every
step consumes at least one character. -/
def rewriteScanF (currentDir : List Char) : Nat → List Char → List Char
  | 0, s => s
  | fuel + 1, s =>
    match tryMatch s with
    | some (t, r) => rewriteTarget t currentDir ++ rewriteScanF currentDir fuel r
    | none =>
      match s with
      | [] => []
      | c :: rest => c :: rewriteScanF currentDir fuel rest

/-- Model of `renderer.RewriteLinks`. -/
def rewriteLinks (htmlContent currentDir : List Char) : List Char :=
  rewriteScanF currentDir htmlContent.length htmlContent

/-- A piece of the canonical match decomposition of a fragment: either a
literal character outside every match, or a matched reference attribute with
captured target `target`. -/
inductive Piece where
  | lit (c : Char)
  | ref (target : List Char)
deriving DecidableEq, Repr

/-- Fueled decomposition of a fragment into literal characters and matched
reference attributes, following exactly the scan order of `ReplaceAllFunc`. -/
def decomposeF : Nat → List Char → List Piece
  | 0, s => s.map .lit
  | fuel + 1, s =>
    match tryMatch s with
    | some (t, r) => .ref t :: decomposeF fuel r
    | none =>
      match s with
      | [] => []
      | c :: rest => .lit c :: decomposeF fuel rest

/-- The match decomposition of a fragment. -/
def decompose (s : List Char) : List Piece := decomposeF s.length s

/-- The source text a piece stands for. -/
def pieceSource : Piece → List Char
  | .lit c => [c]
  | .ref t => chars "href=\"" ++ t ++ ['"']

/-- The text `RewriteLinks` emits for a piece. -/
def pieceRewrite (currentDir : List Char) : Piece → List Char
  | .lit c => [c]
  | .ref t => rewriteTarget t currentDir

/-! ### Corpus scanning (`scanner.ScanDirectory`)

The filesystem is modelled as a finitely branching tree; names within one real
directory never contain `/`. `filepath.Walk` visits the root first and then
every entry depth-first; the callback skips hidden files, prunes hidden
directories via `SkipDir` (pruning the root prunes everything and `Walk`
returns no error), and records each remaining file whose lowercased name ends
in `.md`. No I/O faults are modelled, so the error return is always nil and
the result is the plain entry list. Go sorts sibling names during the walk and
the collected entries at the end with the unstable `sort.Slice`; the model
normalizes order with one stable sort by relative path, which agrees with the
Go output whenever the relative paths are distinct — as they are for any real
directory tree. -/

/-- A filesystem node: a plain file or a directory with children. -/
inductive FSNode where
  | file (name : List Char)
  | dir (name : List Char) (children : List FSNode)

/-- A discovered markdown file (`scanner.FileEntry`). -/
structure FileEntry where
  relPath : List Char
  name : List Char
deriving DecidableEq, Repr

/-- Byte-wise `<` on strings (Go's `<` on ASCII strings). -/
def charsLt : List Char → List Char → Bool
  | [], [] => false
  | [], _ :: _ => true
  | _ :: _, [] => false
  | a :: as, b :: bs =>
    if a.val < b.val then true else if b.val < a.val then false else charsLt as bs

/-- Stable insertion of `x` into `l` under the total preorder `le`. -/
def insertOrd (le : α → α → Bool) (x : α) : List α → List α
  | [] => [x]
  | y :: ys => if le x y then x :: y :: ys else y :: insertOrd le x ys

/-- Stable insertion sort under the total preorder `le`. -/
def sortOrd (le : α → α → Bool) : List α → List α
  | [] => []
  | x :: xs => insertOrd le x (sortOrd le xs)

/-- Model of `filepath.Ext`-based trim: the file name with everything from the final
dot onward removed (`strings.TrimSuffix(name, filepath.Ext(name))`). -/
def trimExtName (n : List Char) : List Char :=
  let revKept := n.reverse.takeWhile (fun c => c != '.')
  if revKept.length = n.length then n else n.take (n.length - revKept.length - 1)

/-- Model of `filepath.Rel`-style join of a parent-relative directory and a name. -/
def joinRel (d n : List Char) : List Char := if d.isEmpty then n else d ++ '/' :: n

mutual

/-- The walk callback applied beneath one node; `rel` is the relative path of
the node's parent directory (empty at the root). -/
def walkNode (node : FSNode) (rel : List Char) : List FileEntry :=
  match node with
  | .file n =>
    if startsW n (chars ".") then []
    else if endsW (toLowerL n) (chars ".md") then [⟨joinRel rel n, trimExtName n⟩]
    else []
  | .dir n cs =>
    if startsW n (chars ".") then []
    else walkList cs (joinRel rel n)

/-- The walk over a list of sibling nodes. -/
def walkList (l : List FSNode) (rel : List Char) : List FileEntry :=
  match l with
  | [] => []
  | c :: cs => walkNode c rel ++ walkList cs rel

end

/-- Order `≤` on entries by relative path (byte-wise), as sorted by `ScanDirectory`. -/
def entryLe (a b : FileEntry) : Bool := !(charsLt b.relPath a.relPath)

/-- Model of `scanner.ScanDirectory` on a root node. The root itself is visited first:
a hidden root directory is pruned whole (and `filepath.Walk` then returns a
nil error); a non-hidden file root is itself the only candidate, with relative
path `.`. -/
def scanDirectory (root : FSNode) : List FileEntry :=
  match root with
  | .dir n cs =>
    if startsW n (chars ".") then []
    else sortOrd entryLe (walkList cs [])
  | .file n =>
    if startsW n (chars ".") then []
    else if endsW (toLowerL n) (chars ".md") then [⟨chars ".", trimExtName n⟩]
    else []

/-! ### Navigation tree (`scanner.BuildTree` / `sortTree` / `RenderTree`) -/

/-- Model of `scanner.TreeNode`: name, URL path (empty for directories), directory
flag, and ordered children. -/
inductive TreeNode where
  | node (name : List Char) (path : List Char) (isDir : Bool)
      (children : List TreeNode)

/-- Name of a tree node. -/
def TreeNode.name : TreeNode → List Char
  | .node n _ _ _ => n

/-- URL path of a tree node. -/
def TreeNode.path : TreeNode → List Char
  | .node _ p _ _ => p

/-- Directory flag of a tree node. -/
def TreeNode.isDir : TreeNode → Bool
  | .node _ _ d _ => d

/-- Children of a tree node. -/
def TreeNode.children : TreeNode → List TreeNode
  | .node _ _ _ c => c

/-- The URL path stored on a newly created file node: the entry's relative
path with one trailing `.md` (then `.MD`) removed and `/` prepended
(`filepath.ToSlash` is the identity here, the paths being slash-separated
already). -/
def routeOf (rel : List Char) : List Char :=
  '/' :: trimSuf (trimSuf rel (chars ".md")) (chars ".MD")

/-- Replace the first child whose name is `p` by `f` applied to it. -/
def replaceFirst (cs : List TreeNode) (p : List Char) (f : TreeNode → TreeNode) :
    List TreeNode :=
  match cs with
  | [] => []
  | c :: rest => if c.name = p then f c :: rest else c :: replaceFirst rest p f

/-- Model of `scanner.insertNode`, lifted to act on a children list: descend along the
path segments, reusing the first child of matching name at each level and
appending a fresh node otherwise; the final segment creates a file node
carrying the route, earlier segments create directory nodes. A final segment
whose name already exists leaves the list unchanged. -/
def insertParts : List (List Char) → List TreeNode → List Char → List TreeNode
  | [], cs, _ => cs
  | [p], cs, rel =>
    if cs.any (fun c => c.name = p) then cs
    else cs ++ [.node p (routeOf rel) false []]
  | p :: q :: ps, cs, rel =>
    if cs.any (fun c => c.name = p) then
      replaceFirst cs p
        (fun c => .node c.name c.path c.isDir (insertParts (q :: ps) c.children rel))
    else cs ++ [.node p [] true (insertParts (q :: ps) [] rel)]

/-- One `insertNode(root, parts, entry)` call of `BuildTree`'s loop. -/
def insertEntry (r : TreeNode) (e : FileEntry) : TreeNode :=
  .node r.name r.path r.isDir (insertParts (splitOnC '/' e.relPath) r.children e.relPath)

/-- Model of `scanner.BuildTree` before the final sort: fold every entry into the
synthetic root via `insertNode`. -/
def buildRaw (entries : List FileEntry) : TreeNode :=
  entries.foldl insertEntry (.node (chars "root") [] true [])

/-- Go's `sortTree` comparator (`less i j`): directories before files, then
case-insensitively by name. -/
def nodeLess (a b : TreeNode) : Bool :=
  if a.isDir != b.isDir then a.isDir
  else charsLt (toLowerL a.name) (toLowerL b.name)

/-- Total preorder derived from `nodeLess` for the model's stable sort. -/
def nodeLe (a b : TreeNode) : Bool := !(nodeLess b a)

mutual

/-- Model of `scanner.sortTree`: sort the children at every level, recursing only into
directory children. Go sorts a level before recursing below it; since the
comparator reads only names and flags, which recursion never changes, sorting
after the recursion — as done here for structural termination — yields the
same tree. -/
def sortTree : TreeNode → TreeNode
  | .node nm p d cs => .node nm p d (sortOrd nodeLe (sortEach cs))

/-- Recursive sorting of each directory child in a children list. -/
def sortEach : List TreeNode → List TreeNode
  | [] => []
  | c :: cs => (if c.isDir then sortTree c else c) :: sortEach cs

end

/-- Model of `scanner.BuildTree`. -/
def buildTree (entries : List FileEntry) : TreeNode :=
  sortTree (buildRaw entries)

/-- Model of `scanner.escapeHTML`: sequential `strings.ReplaceAll` for `&`, `<`, `>`,
`"`; with one-character patterns this is per-character replacement. -/
def replaceChar (s : List Char) (old : Char) (new : List Char) : List Char :=
  s.flatMap (fun c => if c = old then new else [c])

/-- Model of `scanner.escapeHTML`. -/
def escapeHTML (s : List Char) : List Char :=
  replaceChar
    (replaceChar (replaceChar (replaceChar s '&' (chars "&amp;")) '<' (chars "&lt;"))
      '>' (chars "&gt;"))
    '"' (chars "&quot;")

mutual

/-- Model of `scanner.renderTreeNode`: depth 0 renders only the children inside the
outer list; deeper nodes render a folder label (escaped name, then a nested
list when children exist) or a file link (raw path, escaped name). -/
def renderTreeNode (node : TreeNode) (depth : Nat) : List Char :=
  match node, depth with
  | .node _ _ _ cs, 0 =>
    chars "<ul class=\"file-tree\">\n" ++ renderKids cs 1 ++ chars "</ul>\n"
  | .node nm p d cs, depth' + 1 =>
    chars "<li>" ++
      (if d then
        chars "<span class=\"folder\">" ++ escapeHTML nm ++ chars "</span>\n" ++
          (if cs.isEmpty then []
           else chars "<ul>\n" ++ renderKids cs (depth' + 2) ++ chars "</ul>\n")
      else
        chars "<a href=\"" ++ p ++ chars "\" class=\"file\">" ++ escapeHTML nm ++
          chars "</a>") ++
      chars "</li>\n"

/-- Rendering of successive children at one depth. -/
def renderKids (l : List TreeNode) (depth : Nat) : List Char :=
  match l with
  | [] => []
  | c :: cs => renderTreeNode c depth ++ renderKids cs depth

end

/-- Model of `scanner.RenderTree`. -/
def renderTree (root : TreeNode) : List Char := renderTreeNode root 0

mutual

/-- The routes of all document (non-directory) nodes of a tree. -/
def docPaths : TreeNode → List (List Char)
  | .node _ p d cs => (if d then [] else [p]) ++ docPathsL cs

/-- The routes of all document nodes below a list of nodes. -/
def docPathsL : List TreeNode → List (List Char)
  | [] => []
  | c :: cs => docPaths c ++ docPathsL cs

end

/-! ### Lemmas about the match scan -/

theorem rewriteScanF_succ (cd : List Char) (fuel : Nat) (s : List Char) :
    rewriteScanF cd (fuel + 1) s =
      match tryMatch s with
      | some (t, r) => rewriteTarget t cd ++ rewriteScanF cd fuel r
      | none =>
        match s with
        | [] => []
        | c :: rest => c :: rewriteScanF cd fuel rest := rfl

theorem decomposeF_succ (fuel : Nat) (s : List Char) :
    decomposeF (fuel + 1) s =
      match tryMatch s with
      | some (t, r) => .ref t :: decomposeF fuel r
      | none =>
        match s with
        | [] => []
        | c :: rest => .lit c :: decomposeF fuel rest := rfl

theorem dropWhile_eq_drop_len {α} (p : α → Bool) (l : List α) :
    l.dropWhile p = l.drop (l.takeWhile p).length := by
  induction l with
  | nil => rfl
  | cons a t ih =>
    by_cases h : p a <;> simp [List.dropWhile_cons, List.takeWhile_cons, h, ih]

theorem dropWhile_head_false {α} {p : α → Bool} :
    ∀ {l : List α} {d : α} {ds : List α}, l.dropWhile p = d :: ds → p d = false := by
  intro l
  induction l with
  | nil => intro d ds h; simp at h
  | cons a t ih =>
    intro d ds h
    rw [List.dropWhile_cons] at h
    by_cases hp : p a
    · exact ih (by simpa [hp] using h)
    · simp only [hp, if_false] at h
      cases h
      simpa using hp

/-- Anatomy of a successful match at the head of `s`: the input splits as
`href="`, the capture, the closing quote and the remainder; the capture ends
in `.md` or `.MD` and contains no quote. -/
theorem tryMatch_some {s t r : List Char} (h : tryMatch s = some (t, r)) :
    s = chars "href=\"" ++ t ++ '"' :: r ∧
      s.length = r.length + t.length + 7 ∧
      (endsW t (chars ".md") || endsW t (chars ".MD")) = true ∧
      ∀ c ∈ t, c ≠ '"' := by
  unfold tryMatch at h
  simp only [] at h
  split at h
  case isFalse => simp at h
  case isTrue hpre =>
    simp only [startsW] at hpre
    have hsplit : chars "href=\"" ++ s.drop 6 = s := by
      have := List.isPrefixOf_iff_prefix.mp hpre
      simpa [chars] using List.prefix_iff_eq_append.mp this
    split at h
    case isTrue => simp at h
    case isFalse hlen =>
      split at h
      case isFalse => simp at h
      case isTrue hends =>
        simp only [Option.some.injEq, Prod.mk.injEq] at h
        obtain ⟨ht, hr⟩ := h
        have hTD := List.takeWhile_append_dropWhile (fun c => c != '"') (s.drop 6)
        obtain ⟨d, ds, hds⟩ : ∃ d ds,
            (s.drop 6).dropWhile (fun c => c != '"') = d :: ds := by
          cases hcase : (s.drop 6).dropWhile (fun c => c != '"') with
          | nil =>
            exfalso
            apply hlen
            have hTT : (s.drop 6).takeWhile (fun c => c != '"') = s.drop 6 := by
              simpa [hcase] using hTD
            rw [hTT]
          | cons d ds => exact ⟨d, ds, rfl⟩
        have hdq : d = '"' := by
          have := dropWhile_head_false (l := s.drop 6) hds
          simpa using this
        subst hdq
        have hrest_eq : s.drop 6 = t ++ '"' :: ds := by
          conv_lhs => rw [← hTD]
          rw [hds, ht]
        have hlen_t : ((s.drop 6).takeWhile (fun c => c != '"')).length = t.length := by
          rw [ht]
        have hr' : r = ds := by
          rw [← hr, hlen_t]
          conv_lhs => rw [hrest_eq]
          rw [List.drop_append 1]
          rfl
        subst hr'
        refine ⟨?_, ?_, by rw [← ht]; exact hends, ?_⟩
        · rw [← hsplit, hrest_eq]
          simp
        · have h6 : (chars "href=\"").length = 6 := rfl
          have h1 := congrArg List.length hsplit
          have h2 := congrArg List.length hrest_eq
          simp only [List.length_append, List.length_cons, List.length_drop, h6] at h1 h2
          omega
        · intro c hc
          have hc' : c ∈ (s.drop 6).takeWhile (fun c => c != '"') := by
            rw [ht]; exact hc
          have := List.mem_takeWhile_imp hc'
          simpa using this

/-- The decomposition reassembles to the input whenever the fuel suffices. -/
theorem decomposeF_source : ∀ (fuel : Nat) (s : List Char), s.length ≤ fuel →
    (decomposeF fuel s).flatMap pieceSource = s := by
  intro fuel
  induction fuel with
  | zero =>
    intro s hs
    have : s = [] := List.length_eq_zero.mp (Nat.le_zero.mp hs)
    subst this
    rfl
  | succ n ih =>
    intro s hs
    rw [decomposeF_succ]
    cases htm : tryMatch s with
    | some pr =>
      obtain ⟨t, r⟩ := pr
      obtain ⟨hsrc, hlen, -, -⟩ := tryMatch_some htm
      simp only [List.flatMap_cons, pieceSource]
      rw [ih r (by omega), hsrc]
      simp
    | none =>
      cases s with
      | nil => rfl
      | cons c rest =>
        simp only [List.flatMap_cons, pieceSource, List.singleton_append]
        have : rest.length ≤ n := by
          simp at hs
          omega
        rw [ih rest this]

/-- The scan output is the pieces' rewrites whenever the fuel suffices. -/
theorem rewriteScanF_pieces (cd : List Char) :
    ∀ (fuel : Nat) (s : List Char), s.length ≤ fuel →
      rewriteScanF cd fuel s = (decomposeF fuel s).flatMap (pieceRewrite cd) := by
  intro fuel
  induction fuel with
  | zero =>
    intro s hs
    have : s = [] := List.length_eq_zero.mp (Nat.le_zero.mp hs)
    subst this
    rfl
  | succ n ih =>
    intro s hs
    rw [decomposeF_succ, rewriteScanF_succ]
    cases htm : tryMatch s with
    | some pr =>
      obtain ⟨t, r⟩ := pr
      obtain ⟨-, hlen, -, -⟩ := tryMatch_some htm
      simp only [List.flatMap_cons, pieceRewrite]
      rw [ih r (by omega)]
    | none =>
      cases s with
      | nil => rfl
      | cons c rest =>
        simp only [List.flatMap_cons, pieceRewrite, List.singleton_append]
        have : rest.length ≤ n := by
          simp at hs
          omega
        rw [ih rest this]

/-- Every matched target in a decomposition ends in `.md` or `.MD` exactly. -/
theorem decomposeF_ref_ends : ∀ (fuel : Nat) (s t : List Char),
    Piece.ref t ∈ decomposeF fuel s →
      (endsW t (chars ".md") || endsW t (chars ".MD")) = true := by
  intro fuel
  induction fuel with
  | zero =>
    intro s t hmem
    simp only [decomposeF, List.mem_map] at hmem
    obtain ⟨c, -, hc⟩ := hmem
    simp at hc
  | succ n ih =>
    intro s t hmem
    rw [decomposeF_succ] at hmem
    cases htm : tryMatch s with
    | some pr =>
      obtain ⟨t', r⟩ := pr
      rw [htm] at hmem
      simp only [List.mem_cons] at hmem
      cases hmem with
      | inl heq =>
        obtain ⟨-, -, hends, -⟩ := tryMatch_some htm
        cases heq
        exact hends
      | inr hmem => exact ih r t hmem
    | none =>
      rw [htm] at hmem
      cases s with
      | nil => simp at hmem
      | cons c rest =>
        simp only [List.mem_cons] at hmem
        cases hmem with
        | inl heq => simp at heq
        | inr hmem => exact ih rest t hmem

/-! ### Lemmas about splitting, sorting and the walk -/

theorem splitOnC_ne_nil (c : Char) (s : List Char) : splitOnC c s ≠ [] := by
  induction s with
  | nil => simp [splitOnC]
  | cons a t ih =>
    rw [splitOnC]
    by_cases h : a = c
    · simp [h]
    · simp only [h, if_false]
      cases hs : splitOnC c t with
      | nil => simp
      | cons hh hr => simp

theorem splitOnC_cons (c a : Char) (t : List Char) :
    splitOnC c (a :: t) =
      if a = c then [] :: splitOnC c t
      else
        match splitOnC c t with
        | [] => [[a]]
        | h :: r => (a :: h) :: r := rfl

theorem splitOnC_append (c : Char) (as bs : List Char) :
    splitOnC c (as ++ c :: bs) = splitOnC c as ++ splitOnC c bs := by
  induction as with
  | nil => simp [splitOnC_cons, splitOnC]
  | cons a t ih =>
    rw [List.cons_append, splitOnC_cons, splitOnC_cons]
    by_cases h : a = c
    · rw [if_pos h, if_pos h, ih]
      rfl
    · rw [if_neg h, if_neg h, ih]
      cases hs : splitOnC c t with
      | nil => exact absurd hs (splitOnC_ne_nil c t)
      | cons hh hr => simp [hs]

theorem splitOnC_no_sep {c : Char} : ∀ {s : List Char}, c ∉ s → splitOnC c s = [s] := by
  intro s
  induction s with
  | nil => intro h; rfl
  | cons a t ih =>
    intro h
    have ha : ¬a = c := fun hac => h (by simp [hac])
    have ht : c ∉ t := fun hct => h (by simp [hct])
    rw [splitOnC]
    simp only [ha, if_false, ih ht]

theorem mem_insertOrd {α} {le : α → α → Bool} {x y : α} :
    ∀ {l : List α}, x ∈ insertOrd le y l ↔ x = y ∨ x ∈ l := by
  intro l
  induction l with
  | nil => simp [insertOrd]
  | cons a t ih =>
    rw [insertOrd]
    by_cases h : le y a
    · simp [h]
    · simp only [h, Bool.false_eq_true, if_false, List.mem_cons, ih]
      tauto

theorem mem_sortOrd {α} {le : α → α → Bool} {x : α} :
    ∀ {l : List α}, x ∈ sortOrd le l ↔ x ∈ l := by
  intro l
  induction l with
  | nil => simp [sortOrd]
  | cons a t ih => simp [sortOrd, mem_insertOrd, ih]

mutual

/-- Well-formed filesystem: no name contains a path separator. -/
def fsWf : FSNode → Bool
  | .file n => decide ('/' ∉ n)
  | .dir n cs => decide ('/' ∉ n) && fsWfList cs

/-- Well-formedness of a list of siblings. -/
def fsWfList : List FSNode → Bool
  | [] => true
  | c :: cs => fsWf c && fsWfList cs

end

/-- Path segments of a `joinRel`: the segments of the directory part followed
by the (separator-free) name. -/
theorem splitOnC_joinRel {rel n : List Char} (hn : '/' ∉ n) :
    splitOnC '/' (joinRel rel n) =
      (if rel.isEmpty then [] else splitOnC '/' rel) ++ [n] := by
  unfold joinRel
  by_cases h : rel.isEmpty
  · simp [h, splitOnC_no_sep hn]
  · simp only [h, Bool.false_eq_true, if_false]
    rw [splitOnC_append, splitOnC_no_sep hn]

mutual

/-- Walk invariant beneath one node: if every directory level recorded in
`rel` is non-hidden (each segment fails the dot test) and names are
separator-free, every produced entry has only non-hidden path segments. -/
theorem walkNode_segs (node : FSNode) (rel : List Char) (hw : fsWf node = true)
    (hrel : ∀ seg ∈ (if rel.isEmpty then ([] : List (List Char)) else splitOnC '/' rel),
      startsW seg (chars ".") = false) :
    ∀ e ∈ walkNode node rel, ∀ seg ∈ splitOnC '/' e.relPath,
      startsW seg (chars ".") = false := by
  cases node with
  | file n =>
    intro e he seg hseg
    rw [walkNode] at he
    rw [fsWf] at hw
    have hn : '/' ∉ n := of_decide_eq_true hw
    by_cases hhid : startsW n (chars ".")
    · simp [hhid] at he
    · simp only [hhid, Bool.false_eq_true, if_false] at he
      by_cases hmd : endsW (toLowerL n) (chars ".md")
      · simp only [hmd, if_true, List.mem_singleton] at he
        subst he
        have hseg' : seg ∈ splitOnC '/' (joinRel rel n) := hseg
        rw [splitOnC_joinRel hn] at hseg'
        rcases List.mem_append.mp hseg' with h | h
        · exact hrel seg h
        · rw [List.mem_singleton] at h
          subst h
          simpa using hhid
      · simp [hmd] at he
  | dir n cs =>
    intro e he seg hseg
    rw [walkNode] at he
    rw [fsWf, Bool.and_eq_true] at hw
    obtain ⟨hn', hcs⟩ := hw
    have hn : '/' ∉ n := of_decide_eq_true hn'
    by_cases hhid : startsW n (chars ".")
    · simp [hhid] at he
    · simp only [hhid, Bool.false_eq_true, if_false] at he
      refine walkList_segs cs (joinRel rel n) hcs ?_ e he seg hseg
      intro seg' hseg'
      by_cases hje : (joinRel rel n).isEmpty = true
      · simp [hje] at hseg'
      · rw [if_neg hje] at hseg'
        rw [splitOnC_joinRel hn] at hseg'
        rcases List.mem_append.mp hseg' with h | h
        · exact hrel seg' h
        · rw [List.mem_singleton] at h
          subst h
          simpa using hhid

/-- Walk invariant over a list of siblings. -/
theorem walkList_segs (l : List FSNode) (rel : List Char) (hw : fsWfList l = true)
    (hrel : ∀ seg ∈ (if rel.isEmpty then ([] : List (List Char)) else splitOnC '/' rel),
      startsW seg (chars ".") = false) :
    ∀ e ∈ walkList l rel, ∀ seg ∈ splitOnC '/' e.relPath,
      startsW seg (chars ".") = false := by
  cases l with
  | nil =>
    intro e he
    rw [walkList] at he
    simp at he
  | cons c cs =>
    intro e he seg hseg
    rw [walkList] at he
    rw [fsWfList, Bool.and_eq_true] at hw
    obtain ⟨hwc, hwcs⟩ := hw
    rcases List.mem_append.mp he with h | h
    · exact walkNode_segs c rel hwc hrel e h seg hseg
    · exact walkList_segs cs rel hwcs hrel e h seg hseg

end

/-! ### Lemmas about tree building -/

theorem docPathsL_append (l1 l2 : List TreeNode) :
    docPathsL (l1 ++ l2) = docPathsL l1 ++ docPathsL l2 := by
  induction l1 with
  | nil => simp [docPathsL]
  | cons c cs ih =>
    rw [List.cons_append, docPathsL, docPathsL, ih]
    simp

theorem mem_docPathsL {q : List Char} :
    ∀ {l : List TreeNode}, q ∈ docPathsL l ↔ ∃ n ∈ l, q ∈ docPaths n := by
  intro l
  induction l with
  | nil => simp [docPathsL]
  | cons c cs ih =>
    rw [docPathsL]
    simp only [List.mem_append, ih, List.mem_cons]
    constructor
    · rintro (h | ⟨n, hn, hq⟩)
      · exact ⟨c, Or.inl rfl, h⟩
      · exact ⟨n, Or.inr hn, hq⟩
    · rintro ⟨n, hn | hn, hq⟩
      · subst hn; exact Or.inl hq
      · exact Or.inr ⟨n, hn, hq⟩

theorem mem_sortEach {n : TreeNode} :
    ∀ {l : List TreeNode}, n ∈ sortEach l →
      ∃ c ∈ l, n = (if c.isDir then sortTree c else c) := by
  intro l
  induction l with
  | nil => intro h; rw [sortEach] at h; simp at h
  | cons c cs ih =>
    intro h
    rw [sortEach] at h
    rcases List.mem_cons.mp h with h | h
    · exact ⟨c, List.mem_cons_self c cs, h⟩
    · obtain ⟨c', hc', he⟩ := ih h
      exact ⟨c', List.mem_cons_of_mem c hc', he⟩

mutual

/-- Sorting a tree does not add document routes. -/
theorem docPaths_sortTree (t : TreeNode) :
    ∀ q, q ∈ docPaths (sortTree t) → q ∈ docPaths t := by
  cases t with
  | node nm p d cs =>
    intro q hq
    rw [sortTree, docPaths] at hq
    rw [docPaths]
    rcases List.mem_append.mp hq with h | h
    · exact List.mem_append.mpr (Or.inl h)
    · refine List.mem_append.mpr (Or.inr ?_)
      obtain ⟨n, hn, hqn⟩ := mem_docPathsL.mp h
      have hn' : n ∈ sortEach cs := mem_sortOrd.mp hn
      have := docPathsL_sortEach cs q (mem_docPathsL.mpr ⟨n, hn', hqn⟩)
      exact this

/-- Sorting each directory child does not add document routes. -/
theorem docPathsL_sortEach (l : List TreeNode) :
    ∀ q, q ∈ docPathsL (sortEach l) → q ∈ docPathsL l := by
  cases l with
  | nil => intro q hq; rw [sortEach] at hq; exact hq
  | cons c cs =>
    intro q hq
    rw [sortEach, docPathsL] at hq
    rw [docPathsL]
    rcases List.mem_append.mp hq with h | h
    · refine List.mem_append.mpr (Or.inl ?_)
      by_cases hd : c.isDir
      · rw [if_pos hd] at h
        exact docPaths_sortTree c q h
      · rw [if_neg hd] at h
        exact h
    · exact List.mem_append.mpr (Or.inr (docPathsL_sortEach cs q h))

end

theorem docPathsL_replaceFirst {rel : List Char} {f : TreeNode → TreeNode}
    (hf : ∀ c q, q ∈ docPaths (f c) → q ∈ docPaths c ∨ q = routeOf rel) :
    ∀ (cs : List TreeNode) (p : List Char) (q : List Char),
      q ∈ docPathsL (replaceFirst cs p f) → q ∈ docPathsL cs ∨ q = routeOf rel := by
  intro cs
  induction cs with
  | nil => intro p q h; rw [replaceFirst] at h; simp [docPathsL] at h
  | cons c rest ih =>
    intro p q h
    rw [replaceFirst] at h
    by_cases hn : c.name = p
    · rw [if_pos hn, docPathsL] at h
      rcases List.mem_append.mp h with h | h
      · rcases hf c q h with h | h
        · exact Or.inl (by rw [docPathsL]; exact List.mem_append.mpr (Or.inl h))
        · exact Or.inr h
      · exact Or.inl (by rw [docPathsL]; exact List.mem_append.mpr (Or.inr h))
    · rw [if_neg hn, docPathsL] at h
      rcases List.mem_append.mp h with h | h
      · exact Or.inl (by rw [docPathsL]; exact List.mem_append.mpr (Or.inl h))
      · rcases ih p q h with h | h
        · exact Or.inl (by rw [docPathsL]; exact List.mem_append.mpr (Or.inr h))
        · exact Or.inr h

/-- Inserting an entry adds at most its own route to the document routes. -/
theorem docPathsL_insertParts :
    ∀ (parts : List (List Char)) (cs : List TreeNode) (rel : List Char)
      (q : List Char), q ∈ docPathsL (insertParts parts cs rel) →
      q ∈ docPathsL cs ∨ q = routeOf rel := by
  intro parts
  induction parts with
  | nil => intro cs rel q h; rw [insertParts] at h; exact Or.inl h
  | cons p ps ih =>
    intro cs rel q h
    cases ps with
    | nil =>
      rw [insertParts] at h
      by_cases hany : cs.any (fun c => c.name = p)
      · rw [if_pos hany] at h
        exact Or.inl h
      · rw [if_neg hany, docPathsL_append] at h
        rcases List.mem_append.mp h with h | h
        · exact Or.inl h
        · rw [docPathsL, docPaths, docPathsL] at h
          simp at h
          exact Or.inr h
    | cons p2 ps2 =>
      rw [insertParts] at h
      by_cases hany : cs.any (fun c => c.name = p)
      · rw [if_pos hany] at h
        refine docPathsL_replaceFirst ?_ cs p q h
        intro c q' hq'
        cases c with
        | node nm pth d kids =>
          rw [docPaths] at hq'
          simp only [TreeNode.name, TreeNode.path, TreeNode.isDir, TreeNode.children] at hq'
          rcases List.mem_append.mp hq' with h' | h'
          · exact Or.inl (by rw [docPaths]; exact List.mem_append.mpr (Or.inl h'))
          · rcases ih kids rel q' h' with h' | h'
            · exact Or.inl (by rw [docPaths]; exact List.mem_append.mpr (Or.inr h'))
            · exact Or.inr h'
      · rw [if_neg hany, docPathsL_append] at h
        rcases List.mem_append.mp h with h | h
        · exact Or.inl h
        · rw [docPathsL, docPaths] at h
          have h' : q ∈ docPathsL (insertParts (p2 :: ps2) [] rel) := by
            have h0 : docPathsL ([] : List TreeNode) = [] := rfl
            simpa [h0] using h
          rcases ih [] rel q h' with h2 | h2
          · rw [docPathsL] at h2
            simp at h2
          · exact Or.inr h2

/-- Folding entries into a tree adds at most the entries' routes. -/
theorem docPaths_buildFold :
    ∀ (entries : List FileEntry) (r : TreeNode) (q : List Char),
      q ∈ docPaths (entries.foldl insertEntry r) →
      q ∈ docPaths r ∨ ∃ e ∈ entries, q = routeOf e.relPath := by
  intro entries
  induction entries with
  | nil => intro r q h; exact Or.inl h
  | cons e es ih =>
    intro r q h
    rw [List.foldl_cons] at h
    rcases ih (insertEntry r e) q h with h | ⟨e', he', hq⟩
    · cases r with
      | node nm pth d kids =>
        rw [insertEntry] at h
        simp only [TreeNode.name, TreeNode.path, TreeNode.isDir, TreeNode.children] at h
        rw [docPaths] at h
        rcases List.mem_append.mp h with h | h
        · exact Or.inl (by rw [docPaths]; exact List.mem_append.mpr (Or.inl h))
        · rcases docPathsL_insertParts _ kids e.relPath q h with h | h
          · exact Or.inl (by rw [docPaths]; exact List.mem_append.mpr (Or.inr h))
          · exact Or.inr ⟨e, List.mem_cons_self e es, h⟩
    · exact Or.inr ⟨e', List.mem_cons_of_mem e he', hq⟩

/-- No raw markup-unsafe character: `<`, `>`, `"` never occur, and every `&`
opens one of the four entities `&amp;` `&lt;` `&gt;` `&quot;`. -/
def noRawUnsafe : List Char → Bool
  | [] => true
  | c :: rest =>
    if c = '&' then
      if (startsW rest (chars "amp;") || startsW rest (chars "lt;") ||
          startsW rest (chars "gt;") || startsW rest (chars "quot;")) = true then
        noRawUnsafe rest
      else false
    else if c = '<' ∨ c = '>' ∨ c = '"' then false
    else noRawUnsafe rest

theorem startsW_self_append (p x : List Char) : startsW (p ++ x) p = true := by
  rw [startsW]
  exact List.isPrefixOf_iff_prefix.mpr ( List.prefix_append p x)

theorem noRaw_plain (c : Char) (r : List Char) (h1 : ¬c = '&')
    (h2 : ¬(c = '<' ∨ c = '>' ∨ c = '"')) :
    noRawUnsafe (c :: r) = noRawUnsafe r := by
  rw [noRawUnsafe, if_neg h1, if_neg h2]

theorem escapeHTML_append (x y : List Char) :
    escapeHTML (x ++ y) = escapeHTML x ++ escapeHTML y := by
  simp [escapeHTML, replaceChar, List.flatMap_append]

theorem escapeHTML_cons (c : Char) (x : List Char) :
    escapeHTML (c :: x) = escapeHTML [c] ++ escapeHTML x := by
  have h : (c :: x) = [c] ++ x := rfl
  rw [h, escapeHTML_append]

theorem noRaw_amp (x : List Char) :
    noRawUnsafe (chars "&amp;" ++ x) = noRawUnsafe x := by
  show noRawUnsafe ('&' :: 'a' :: 'm' :: 'p' :: ';' :: x) = noRawUnsafe x
  have hs : startsW ('a' :: 'm' :: 'p' :: ';' :: x) (chars "amp;") = true :=
    startsW_self_append (chars "amp;") x
  rw [noRawUnsafe, if_pos rfl, hs, if_pos (by simp)]
  rw [noRaw_plain _ _ (by decide) (by decide)]
  rw [noRaw_plain _ _ (by decide) (by decide)]
  rw [noRaw_plain _ _ (by decide) (by decide)]
  rw [noRaw_plain _ _ (by decide) (by decide)]

theorem noRaw_lt (x : List Char) :
    noRawUnsafe (chars "&lt;" ++ x) = noRawUnsafe x := by
  show noRawUnsafe ('&' :: 'l' :: 't' :: ';' :: x) = noRawUnsafe x
  have hs : startsW ('l' :: 't' :: ';' :: x) (chars "lt;") = true :=
    startsW_self_append (chars "lt;") x
  rw [noRawUnsafe, if_pos rfl, hs, if_pos (by simp)]
  rw [noRaw_plain _ _ (by decide) (by decide)]
  rw [noRaw_plain _ _ (by decide) (by decide)]
  rw [noRaw_plain _ _ (by decide) (by decide)]

theorem noRaw_gt (x : List Char) :
    noRawUnsafe (chars "&gt;" ++ x) = noRawUnsafe x := by
  show noRawUnsafe ('&' :: 'g' :: 't' :: ';' :: x) = noRawUnsafe x
  have hs : startsW ('g' :: 't' :: ';' :: x) (chars "gt;") = true :=
    startsW_self_append (chars "gt;") x
  rw [noRawUnsafe, if_pos rfl, hs, if_pos (by simp)]
  rw [noRaw_plain _ _ (by decide) (by decide)]
  rw [noRaw_plain _ _ (by decide) (by decide)]
  rw [noRaw_plain _ _ (by decide) (by decide)]

theorem noRaw_quot (x : List Char) :
    noRawUnsafe (chars "&quot;" ++ x) = noRawUnsafe x := by
  show noRawUnsafe ('&' :: 'q' :: 'u' :: 'o' :: 't' :: ';' :: x) = noRawUnsafe x
  have hs : startsW ('q' :: 'u' :: 'o' :: 't' :: ';' :: x) (chars "quot;") = true :=
    startsW_self_append (chars "quot;") x
  rw [noRawUnsafe, if_pos rfl, hs, if_pos (by simp)]
  rw [noRaw_plain _ _ (by decide) (by decide)]
  rw [noRaw_plain _ _ (by decide) (by decide)]
  rw [noRaw_plain _ _ (by decide) (by decide)]
  rw [noRaw_plain _ _ (by decide) (by decide)]
  rw [noRaw_plain _ _ (by decide) (by decide)]

theorem escapeHTML_plain (c : Char) (h1 : ¬c = '&') (h2 : ¬c = '<') (h3 : ¬c = '>')
    (h4 : ¬c = '"') : escapeHTML [c] = [c] := by
  simp [escapeHTML, replaceChar, h1, h2, h3, h4]

theorem noRawUnsafe_escapeHTML (s : List Char) :
    noRawUnsafe (escapeHTML s) = true := by
  have key : ∀ (s r : List Char), noRawUnsafe r = true →
      noRawUnsafe (escapeHTML s ++ r) = true := by
    intro s
    induction s with
    | nil =>
      intro r hr
      have h0 : escapeHTML [] = [] := rfl
      rw [h0, List.nil_append]
      exact hr
    | cons c s' ih =>
      intro r hr
      rw [escapeHTML_cons, List.append_assoc]
      by_cases hamp : c = '&'
      · subst hamp
        have he : escapeHTML ['&'] = chars "&amp;" := rfl
        rw [he, noRaw_amp]
        exact ih r hr
      · by_cases hlt : c = '<'
        · subst hlt
          have he : escapeHTML ['<'] = chars "&lt;" := rfl
          rw [he, noRaw_lt]
          exact ih r hr
        · by_cases hgt : c = '>'
          · subst hgt
            have he : escapeHTML ['>'] = chars "&gt;" := rfl
            rw [he, noRaw_gt]
            exact ih r hr
          · by_cases hq : c = '"'
            · subst hq
              have he : escapeHTML ['"'] = chars "&quot;" := rfl
              rw [he, noRaw_quot]
              exact ih r hr
            · rw [escapeHTML_plain c hamp hlt hgt hq]
              rw [List.singleton_append, noRaw_plain c _ hamp (by tauto)]
              exact ih r hr
  have := key s []
  rw [List.append_nil] at this
  exact this (by rfl)

theorem startsW_slash_cons (x : List Char) : startsW ('/' :: x) (chars "/") = true := by
  have h : chars "/" = ['/'] := rfl
  rw [startsW, h]
  simp [List.isPrefixOf]

/-! ### Lemmas about substring search and the frontmatter parser -/

theorem findSub_none_iff {p : List Char} :
    ∀ {s : List Char}, findSub s p = none ↔ ¬p <:+: s := by
  intro s
  induction s with
  | nil =>
    rw [findSub.eq_1]
    by_cases h : p.isPrefixOf [] = true
    · have hp : p = [] := by
        cases p with
        | nil => rfl
        | cons a as => simp [List.isPrefixOf] at h
      subst hp
      simp
    · rw [if_neg h]
      have hp : ¬p <:+: [] := by
        intro hinf
        have := List.infix_nil.mp hinf
        subst this
        simp [List.isPrefixOf] at h
      simp [hp]
  | cons a t ih =>
    rw [findSub.eq_2]
    by_cases h : p.isPrefixOf (a :: t) = true
    · rw [if_pos h]
      constructor
      · intro hc
        exact absurd hc (by simp)
      · intro hni
        exact absurd ( List.IsPrefix.isInfix ( List.isPrefixOf_iff_prefix.mp h)) hni
    · rw [if_neg h, Option.map_eq_none', ih, List.infix_cons_iff]
      constructor
      · rintro hnt (hpre | hinf)
        · exact h ( List.isPrefixOf_iff_prefix.mpr hpre)
        · exact hnt hinf
      · intro hn hinf
        exact hn (Or.inr hinf)

theorem findSub_first {c : Char} {R : List Char} (hcR : c ∉ R) :
    ∀ (A B : List Char), ¬(c :: R) <:+: A →
      findSub (A ++ ((c :: R) ++ B)) (c :: R) = some A.length := by
  intro A
  induction A with
  | nil =>
    intro B hA
    show findSub (c :: (R ++ B)) (c :: R) = some 0
    rw [findSub.eq_2, if_pos]
    exact List.isPrefixOf_iff_prefix.mpr ( List.prefix_append (c :: R) B)
  | cons a A' ih =>
    intro B hA
    have hnp : ¬(c :: R).isPrefixOf (a :: (A' ++ ((c :: R) ++ B))) = true := by
      intro hp
      have hpre := List.isPrefixOf_iff_prefix.mp hp
      by_cases hlen : (c :: R).length ≤ (a :: A').length
      · have h2' : (a :: A') <+: a :: (A' ++ ((c :: R) ++ B)) :=
          ⟨(c :: R) ++ B, rfl⟩
        have h3 : (c :: R) <+: (a :: A') :=
          List.prefix_of_prefix_length_le hpre h2' hlen
        exact hA ( List.IsPrefix.isInfix h3)
      · obtain ⟨z, hz⟩ := hpre
        have hm : (a :: A').length < (c :: R).length := by omega
        have hget := congrArg (fun l => l[(a :: A').length]?) hz
        simp only [] at hget
        rw [List.getElem?_append_left hm] at hget
        have hz' : a :: (A' ++ ((c :: R) ++ B)) = (a :: A') ++ ((c :: R) ++ B) := rfl
        rw [hz', List.getElem?_append_right (le_refl _), Nat.sub_self] at hget
        have hR : (c :: R)[(a :: A').length]? = some c := by
          rw [hget]
          simp
        have hmem : c ∈ R := by
          cases hk : (a :: A').length with
          | zero => simp at hk
          | succ k =>
            rw [hk] at hR
            have hk1 : k < R.length := by
              rw [hk] at hm
              simpa using hm
            rw [List.getElem?_cons_succ, List.getElem?_eq_getElem hk1] at hR
            have heq : R[k] = c := by simpa using hR
            rw [← heq]
            exact List.getElem_mem hk1
        exact hcR hmem
    have hshow : (a :: A') ++ ((c :: R) ++ B) = a :: (A' ++ ((c :: R) ++ B)) := rfl
    rw [hshow, findSub.eq_2, if_neg hnp]
    have hA' : ¬(c :: R) <:+: A' := fun hinf => hA ( List.infix_cons hinf)
    rw [ih B hA']
    rfl

theorem startsW_crlf_false (X : List Char) :
    startsW (chars "---\n" ++ X) (chars "---\r\n") = false := rfl

/-- The frontmatter parser on a delimited document: when the block `A`
contains no occurrence of `"\n---"`, the closing delimiter is found exactly
at the end of `A`, the block parsed is `A`, and the rest is `B` with one
leading line terminator stripped. -/
theorem parseFrontmatter_block (A B : List Char) (hA : ¬(chars "\n---") <:+: A) :
    parseFrontmatter (chars "---\n" ++ A ++ chars "\n---" ++ B) =
      (parseBlock A, stripTerm B) := by
  have hC : chars "---\n" ++ A ++ chars "\n---" ++ B =
      chars "---\n" ++ (A ++ (chars "\n---" ++ B)) := by
    simp [List.append_assoc]
  rw [hC]
  have h1 : startsW (chars "---\n" ++ (A ++ (chars "\n---" ++ B))) (chars "---\n") = true :=
    startsW_self_append _ _
  have h2 : startsW (chars "---\n" ++ (A ++ (chars "\n---" ++ B))) (chars "---\r\n") =
      false := startsW_crlf_false _
  have hdrop : (chars "---\n" ++ (A ++ (chars "\n---" ++ B))).drop 4 =
      A ++ (chars "\n---" ++ B) := by
    have h4 : (4 : Nat) = (chars "---\n").length := rfl
    rw [h4, List.drop_left]
  have hfind : findSub (A ++ (chars "\n---" ++ B)) (chars "\n---") = some A.length := by
    have hpat : chars "\n---" = '\n' :: chars "---" := rfl
    rw [hpat]
    exact findSub_first (by decide) A B (hpat ▸ hA)
  unfold parseFrontmatter
  rw [h1, h2]
  simp only [Bool.not_true, Bool.not_false, Bool.false_and, Bool.false_eq_true, if_false,
    Bool.and_false]
  rw [hdrop, hfind]
  simp only []
  have htake : (A ++ (chars "\n---" ++ B)).take A.length = A := List.take_left A _
  have hdrop2 : (chars "---\n" ++ (A ++ (chars "\n---" ++ B))).drop (A.length + 4 + 4) =
      B := by
    have e1 : A.length + 4 + 4 = 4 + (A.length + 4) := by omega
    rw [e1, ← List.drop_drop, hdrop, List.drop_append 4]
    have h4 : (4 : Nat) = (chars "\n---").length := rfl
    rw [h4, List.drop_left]
  rw [htake, hdrop2]

/-! ### Lemmas about whitespace trimming -/

/-- Right trim: remove trailing whitespace. -/
def rTrimSp (s : List Char) : List Char := (s.reverse.dropWhile isSpaceCh).reverse

theorem dropWhile_dropWhile (p : α → Bool) (l : List α) :
    (l.dropWhile p).dropWhile p = l.dropWhile p := by
  cases h : l.dropWhile p with
  | nil => rfl
  | cons d ds =>
    have hd := dropWhile_head_false (l := l) h
    rw [List.dropWhile_cons, hd]
    simp

theorem rTrimSp_idem (s : List Char) : rTrimSp (rTrimSp s) = rTrimSp s := by
  rw [rTrimSp, rTrimSp, List.reverse_reverse, dropWhile_dropWhile]

theorem rTrimSp_cons (c : Char) (x : List Char) :
    rTrimSp (c :: x) =
      if (x.reverse.dropWhile isSpaceCh).isEmpty then
        (if isSpaceCh c then [] else [c])
      else c :: rTrimSp x := by
  rw [rTrimSp, List.reverse_cons, List.dropWhile_append]
  by_cases h : (x.reverse.dropWhile isSpaceCh).isEmpty = true
  · rw [if_pos h, if_pos h]
    by_cases hc : isSpaceCh c = true
    · rw [if_pos hc]
      have h1 : List.dropWhile isSpaceCh [c] = [] := by
        rw [List.dropWhile_cons, if_pos hc]
        rfl
      rw [h1]
      rfl
    · rw [if_neg hc]
      have h1 : List.dropWhile isSpaceCh [c] = [c] := by
        rw [List.dropWhile_cons, if_neg hc]
      rw [h1]
      rfl
  · rw [if_neg h, if_neg h]
    rw [List.reverse_append, rTrimSp]
    rfl

theorem dropWhile_rTrimSp_comm (x : List Char) :
    (rTrimSp x).dropWhile isSpaceCh = rTrimSp (x.dropWhile isSpaceCh) := by
  induction x with
  | nil => rfl
  | cons c x' ih =>
    rw [rTrimSp_cons]
    by_cases hds : (x'.reverse.dropWhile isSpaceCh).isEmpty = true
    · rw [if_pos hds]
      have hx' : x'.dropWhile isSpaceCh = [] := by
        rw [List.dropWhile_eq_nil_iff]
        intro y hy
        exact List.dropWhile_eq_nil_iff.mp (List.isEmpty_iff.mp hds) y
          (List.mem_reverse.mpr hy)
      by_cases hc : isSpaceCh c = true
      · rw [if_pos hc, List.dropWhile_cons, if_pos hc, hx']
        rfl
      · rw [if_neg hc]
        have hr : (c :: x').dropWhile isSpaceCh = c :: x' := by
          rw [List.dropWhile_cons, if_neg hc]
        rw [hr, List.dropWhile_cons, if_neg hc, rTrimSp_cons, if_pos hds, if_neg hc]
    · rw [if_neg hds]
      by_cases hc : isSpaceCh c = true
      · rw [List.dropWhile_cons, if_pos hc, ih, List.dropWhile_cons, if_pos hc]
      · rw [List.dropWhile_cons, if_neg hc, List.dropWhile_cons, if_neg hc]
        rw [rTrimSp_cons, if_neg hds]

theorem trimSpaceL_rTrimSp (t : List Char) :
    trimSpaceL (rTrimSp t) = trimSpaceL t := by
  have h1 : ∀ x : List Char, trimSpaceL x = rTrimSp (x.dropWhile isSpaceCh) :=
    fun x => rfl
  rw [h1, h1, dropWhile_rTrimSp_comm, rTrimSp_idem]

theorem trimSpaceL_all_space {t : List Char} (h : ∀ c ∈ t, isSpaceCh c = true) :
    trimSpaceL t = [] := by
  rw [trimSpaceL, List.dropWhile_eq_nil_iff.mpr h]
  rfl

/-! ### Frontmatter line parsing -/

theorem applyLine_key (fm : Frontmatter) (t : List Char) :
    applyLine fm (chars "title: " ++ t) =
        { fm with title := trimQuotesL (trimSpaceL t) } ∧
      applyLine fm (chars "author: " ++ t) =
        { fm with author := trimQuotesL (trimSpaceL t) } := by
  by_cases hds : (t.reverse.dropWhile isSpaceCh).isEmpty = true
  · have hallsp : ∀ c ∈ t, isSpaceCh c = true := by
      intro c hc
      exact List.dropWhile_eq_nil_iff.mp (List.isEmpty_iff.mp hds) c
        (List.mem_reverse.mpr hc)
    have hts : trimSpaceL t = [] := trimSpaceL_all_space hallsp
    have hlT : trimSpaceL (chars "title: " ++ t) = chars "title:" := by
      rw [trimSpaceL]
      have h1 : (chars "title: " ++ t).dropWhile isSpaceCh = chars "title: " ++ t := rfl
      rw [h1, List.reverse_append, List.dropWhile_append, if_pos hds]
      rfl
    have hlA : trimSpaceL (chars "author: " ++ t) = chars "author:" := by
      rw [trimSpaceL]
      have h1 : (chars "author: " ++ t).dropWhile isSpaceCh = chars "author: " ++ t := rfl
      rw [h1, List.reverse_append, List.dropWhile_append, if_pos hds]
      rfl
    constructor
    · unfold applyLine
      simp only []
      rw [hlT, hts]
      rfl
    · unfold applyLine
      simp only []
      rw [hlA, hts]
      rfl
  · have hlT : trimSpaceL (chars "title: " ++ t) =
        chars "title: " ++ (t.reverse.dropWhile isSpaceCh).reverse := by
      rw [trimSpaceL]
      have h1 : (chars "title: " ++ t).dropWhile isSpaceCh = chars "title: " ++ t := rfl
      rw [h1, List.reverse_append, List.dropWhile_append, if_neg hds,
        List.reverse_append, List.reverse_reverse]
    have hlA : trimSpaceL (chars "author: " ++ t) =
        chars "author: " ++ (t.reverse.dropWhile isSpaceCh).reverse := by
      rw [trimSpaceL]
      have h1 : (chars "author: " ++ t).dropWhile isSpaceCh = chars "author: " ++ t := rfl
      rw [h1, List.reverse_append, List.dropWhile_append, if_neg hds,
        List.reverse_append, List.reverse_reverse]
    have hrt : trimSpaceL ((t.reverse.dropWhile isSpaceCh).reverse) = trimSpaceL t :=
      trimSpaceL_rTrimSp t
    constructor
    · unfold applyLine
      simp only []
      rw [hlT]
      have hie : (chars "title: " ++ (t.reverse.dropWhile isSpaceCh).reverse).isEmpty =
          false := rfl
      rw [hie]
      simp only [Bool.false_eq_true, if_false]
      have hfs : findSub (chars "title: " ++ (t.reverse.dropWhile isSpaceCh).reverse)
          (chars ":") = some 5 := rfl
      rw [hfs]
      simp only []
      have htake : (chars "title: " ++ (t.reverse.dropWhile isSpaceCh).reverse).take 5 =
          chars "title" := rfl
      have hdrop : (chars "title: " ++ (t.reverse.dropWhile isSpaceCh).reverse).drop 6 =
          ' ' :: (t.reverse.dropWhile isSpaceCh).reverse := rfl
      rw [htake, hdrop]
      have hcond : toLowerL (trimSpaceL (chars "title")) = chars "title" := rfl
      rw [hcond, if_pos rfl]
      have hsp : trimSpaceL (' ' :: (t.reverse.dropWhile isSpaceCh).reverse) =
          trimSpaceL ((t.reverse.dropWhile isSpaceCh).reverse) := rfl
      rw [hsp, hrt]
    · unfold applyLine
      simp only []
      rw [hlA]
      have hie : (chars "author: " ++ (t.reverse.dropWhile isSpaceCh).reverse).isEmpty =
          false := rfl
      rw [hie]
      simp only [Bool.false_eq_true, if_false]
      have hfs : findSub (chars "author: " ++ (t.reverse.dropWhile isSpaceCh).reverse)
          (chars ":") = some 6 := rfl
      rw [hfs]
      simp only []
      have htake : (chars "author: " ++ (t.reverse.dropWhile isSpaceCh).reverse).take 6 =
          chars "author" := rfl
      have hdrop : (chars "author: " ++ (t.reverse.dropWhile isSpaceCh).reverse).drop 7 =
          ' ' :: (t.reverse.dropWhile isSpaceCh).reverse := rfl
      rw [htake, hdrop]
      have hcond1 : ¬toLowerL (trimSpaceL (chars "author")) = chars "title" := by decide
      have hcond2 : toLowerL (trimSpaceL (chars "author")) = chars "author" := rfl
      rw [if_neg hcond1, if_pos hcond2]
      have hsp : trimSpaceL (' ' :: (t.reverse.dropWhile isSpaceCh).reverse) =
          trimSpaceL ((t.reverse.dropWhile isSpaceCh).reverse) := rfl
      rw [hsp, hrt]

theorem split_unique {c : Char} :
    ∀ {x P z Q : List Char}, x ++ c :: z = P ++ c :: Q → c ∉ P → c ∉ Q →
      x = P ∧ z = Q := by
  intro x
  induction x with
  | nil =>
    intro P z Q h hP hQ
    cases P with
    | nil =>
      rw [List.nil_append, List.nil_append] at h
      injection h with h1 h2
      exact ⟨rfl, h2⟩
    | cons p P' =>
      rw [List.nil_append, List.cons_append] at h
      injection h with h1 h2
      exact absurd (h1 ▸ List.mem_cons_self p P') hP
  | cons b x' ih =>
    intro P z Q h hP hQ
    cases P with
    | nil =>
      rw [List.nil_append, List.cons_append] at h
      injection h with h1 h2
      subst h1
      have : b ∈ Q := by
        rw [← h2]
        simp
      exact absurd this hQ
    | cons p P' =>
      rw [List.cons_append, List.cons_append] at h
      injection h with h1 h2
      subst h1
      have hP' : c ∉ P' := fun hm => hP (List.mem_cons_of_mem _ hm)
      obtain ⟨hx, hz⟩ := ih h2 hP' hQ
      exact ⟨by rw [hx], hz⟩

theorem not_infix_single_sep {c : Char} {R X Y : List Char} (hX : c ∉ X) (hY : c ∉ Y)
    (hR : ¬R <+: Y) : ¬(c :: R) <:+: (X ++ c :: Y) := by
  rintro ⟨s, u, hsu⟩
  have hsu' : s ++ c :: (R ++ u) = X ++ c :: Y := by
    rw [← hsu]
    simp [List.append_assoc]
  obtain ⟨-, hz⟩ := split_unique hsu' hX hY
  exact hR ⟨u, hz⟩

/-! ### Claim theorems -/

/-- C1, counterexample: rewriting `href="../README.md"` with current directory
`docs/sub` does not yield `href="/README"` — joining `../README.md` onto
`docs/sub` cancels only the `sub` component. -/
theorem c1_counterexample :
    rewriteLinks (chars "href=\"../README.md\"") (chars "docs/sub") ≠
      chars "href=\"/README\"" := by decide

/-- C1 (amended): rewriting the fragment `href="../README.md"` with current
directory `docs/sub` yields `href="/docs/README"`: the relative target is
joined onto the current document's directory, `.` and `..` segments are
normalized away, the document extension is stripped, and a leading `/` is
attached. -/
theorem c1_amended_rewrite :
    rewriteLinks (chars "href=\"../README.md\"") (chars "docs/sub") =
      chars "href=\"/docs/README\"" := by decide

/-- C2, counterexample: a target ending in the mixed-case spelling `.Md` is
not rewritten at all — the pattern accepts only `.md` and `.MD` — so the
fragment `href="a.Md"` survives unchanged instead of becoming the
server-relative route `href="/a"`. -/
theorem c2_counterexample :
    rewriteLinks (chars "href=\"a.Md\"") [] = chars "href=\"a.Md\"" ∧
      chars "href=\"a.Md\"" ≠ chars "href=\"/a\"" := by decide

/-- C8: the rewrite is a pure, single-pass frame-preserving transformation:
for every fragment and current directory, the fragment decomposes into
literal characters and matched reference attributes, the decomposition
reassembles byte-for-byte to the input (so every byte outside matched
attributes is untouched — replacing each piece by its source is the
identity), the output of `RewriteLinks` is exactly the piecewise rewrite of
that decomposition, and every matched target beginning with a network scheme
(`http://` or `https://`) is reproduced byte-for-byte unchanged. -/
theorem c8_rewrite_frame (s cd : List Char) :
    (decompose s).flatMap pieceSource = s ∧
      rewriteLinks s cd = (decompose s).flatMap (pieceRewrite cd) ∧
      ∀ t, (startsW t (chars "http://") || startsW t (chars "https://")) = true →
        pieceRewrite cd (.ref t) = pieceSource (.ref t) := by
  refine ⟨decomposeF_source s.length s (le_refl _),
    rewriteScanF_pieces cd s.length s (le_refl _), ?_⟩
  intro t hscheme
  simp only [pieceRewrite, pieceSource, rewriteTarget, hscheme, if_pos]

/-- The fragment of claim C8, holding one internal and one external link. -/
def c8Fragment : List Char :=
  chars "<a href=\"external.md\">x</a> <a href=\"https://example.com/page.md\">y</a>"

/-- Witness for C8 at a concrete fragment containing a reference to
`external.md` and a reference to `https://example.com/page.md`. -/
theorem c8_rewrite_frame_witness :
    (decompose c8Fragment).flatMap pieceSource = c8Fragment ∧
      rewriteLinks c8Fragment [] = (decompose c8Fragment).flatMap (pieceRewrite []) ∧
      pieceRewrite [] (.ref (chars "https://example.com/page.md")) =
        pieceSource (.ref (chars "https://example.com/page.md")) := by
  obtain ⟨h1, h2, h3⟩ := c8_rewrite_frame c8Fragment []
  exact ⟨h1, h2, h3 (chars "https://example.com/page.md") (by decide)⟩

/-- C2 (amended): for every fragment and current directory, `RewriteLinks`
rewrites exactly the reference attributes whose quoted target ends in `.md`
or `.MD` spelled exactly (mixed-case spellings such as `.Md` and `.mD` are
not matched and stay untouched): the output is the piecewise rewrite of the
match decomposition, every matched target ends in `.md` or `.MD`, and every
matched target not beginning with a network scheme becomes a server-relative
route (its replacement is `href="` + route + `"` with the route beginning
with `/`). -/
theorem c2_amended_rewrite (s cd : List Char) :
    rewriteLinks s cd = (decompose s).flatMap (pieceRewrite cd) ∧
      (∀ t, Piece.ref t ∈ decompose s →
        (endsW t (chars ".md") || endsW t (chars ".MD")) = true) ∧
      ∀ t, (startsW t (chars "http://") || startsW t (chars "https://")) = false →
        pieceRewrite cd (.ref t) =
            chars "href=\"" ++ finalRoute t cd ++ ['"'] ∧
          startsW (finalRoute t cd) (chars "/") = true := by
  refine ⟨rewriteScanF_pieces cd s.length s (le_refl _),
    fun t hmem => decomposeF_ref_ends s.length s t hmem, ?_⟩
  intro t hscheme
  constructor
  · simp only [pieceRewrite, rewriteTarget, hscheme]
    simp
  · unfold finalRoute
    simp only []
    split
    case isTrue h => exact h
    case isFalse h =>
      simp [startsW, chars, List.isPrefixOf]

/-- Witness for C2 (amended) at the fragment `href="external.md"`. -/
theorem c2_amended_rewrite_witness :
    rewriteLinks (chars "href=\"external.md\"") [] =
        (decompose (chars "href=\"external.md\"")).flatMap (pieceRewrite []) ∧
      (endsW (chars "external.md") (chars ".md") ||
        endsW (chars "external.md") (chars ".MD")) = true ∧
      pieceRewrite [] (.ref (chars "external.md")) =
          chars "href=\"" ++ finalRoute (chars "external.md") [] ++ ['"'] ∧
        startsW (finalRoute (chars "external.md") []) (chars "/") = true := by
  obtain ⟨h1, h2, h3⟩ := c2_amended_rewrite (chars "href=\"external.md\"") []
  exact ⟨h1, h2 (chars "external.md") (by decide),
    h3 (chars "external.md") (by decide)⟩

/-- C5, counterexample: with content `---\ntitle: x\n----\nbody` no subsequent
line is exactly `---`, yet `ParseFrontmatter` does not fall back to empty
metadata with the original content: the `----` line is accepted as the closing
delimiter (the code searches for the substring `\n---`), the title is parsed,
and the leftover `-` of that line leaks into the returned content. -/
theorem c5_counterexample :
    parseFrontmatter (chars "---\ntitle: x\n----\nbody") =
        (⟨chars "x", []⟩, chars "-\nbody") ∧
      ((⟨chars "x", []⟩, chars "-\nbody") : Frontmatter × List Char) ≠
        (emptyFm, chars "---\ntitle: x\n----\nbody") := by decide

/-- C5 (amended): the closing delimiter `ParseFrontmatter` recognizes is the
first subsequent position where the four bytes `\n---` occur — i.e. the first
later line beginning with `---`, not necessarily consisting exactly of `---`;
the parsed block is everything before that occurrence, and only the four
bytes plus one following line terminator are consumed, so trailing characters
of the delimiter line remain in the returned content. When no later line
begins with `---` (no `\n---` occurrence), the whole document is treated as
having no metadata block: empty metadata with the original content. -/
theorem c5_amended_frontmatter :
    (∀ A B : List Char, ¬(chars "\n---") <:+: A →
        parseFrontmatter (chars "---\n" ++ A ++ chars "\n---" ++ B) =
          (parseBlock A, stripTerm B)) ∧
      ∀ C : List Char, startsW C (chars "---\n") = true →
        ¬(chars "\n---") <:+: C.drop 4 → parseFrontmatter C = (emptyFm, C) := by
  constructor
  · exact parseFrontmatter_block
  · intro C h1 hni
    have hCeq : chars "---\n" ++ C.drop 4 = C := by
      have hp := List.isPrefixOf_iff_prefix.mp h1
      have := List.prefix_iff_eq_append.mp hp
      simpa [chars] using this
    have h2 : startsW C (chars "---\r\n") = false := by
      rw [← hCeq]
      exact startsW_crlf_false _
    have hfind : findSub (C.drop 4) (chars "\n---") = none := findSub_none_iff.mpr hni
    unfold parseFrontmatter
    rw [h1, h2]
    simp only [Bool.not_true, Bool.not_false, Bool.false_and, Bool.false_eq_true, if_false,
      Bool.and_false]
    rw [hfind]

/-- Witness for C5 (amended): a well-delimited block parses to its key/value
content, and a document whose later lines never begin with `---` falls back
to empty metadata with the original content. -/
theorem c5_amended_frontmatter_witness :
    parseFrontmatter (chars "---\n" ++ chars "title: x" ++ chars "\n---" ++ chars "\nbody") =
        (parseBlock (chars "title: x"), stripTerm (chars "\nbody")) ∧
      parseFrontmatter (chars "---\nabc") = (emptyFm, chars "---\nabc") := by
  obtain ⟨h1, h2⟩ := c5_amended_frontmatter
  exact ⟨h1 (chars "title: x") (chars "\nbody") (by decide),
    h2 (chars "---\nabc") (by decide) (by decide)⟩

/-- C6, counterexample: the declared title `"'A'"` is recovered as `A`, not as
`'A'` — `strings.Trim(value, "\"'")` strips every leading and trailing quote
character, not exactly one surrounding layer. -/
theorem c6_counterexample :
    (parseFrontmatter (chars "---\ntitle: \"'A'\"\n---\nbody")).1.title = chars "A" ∧
      chars "A" ≠ chars "'A'" := by decide

/-- C6 (amended): for every well-formed metadata block declaring a title and
an author on their own lines, extraction recovers each value trimmed of
whitespace and with ALL leading and trailing quote characters (single or
double, in any mix) removed — `strings.Trim` with the cutset `"'`, not the
removal of exactly one surrounding layer. -/
theorem c6_amended_values (t a : List Char) (ht : '\n' ∉ t) (ha : '\n' ∉ a) :
    parseFrontmatter
        (chars "---\n" ++ (chars "title: " ++ t ++ chars "\nauthor: " ++ a) ++
          chars "\n---" ++ chars "\nbody") =
      (⟨trimQuotesL (trimSpaceL t), trimQuotesL (trimSpaceL a)⟩, chars "body") := by
  have hanl : chars "\nauthor: " = '\n' :: chars "author: " := rfl
  have hAeq : chars "title: " ++ t ++ chars "\nauthor: " ++ a =
      (chars "title: " ++ t) ++ '\n' :: (chars "author: " ++ a) := by
    rw [hanl]
    simp [List.append_assoc]
  have hX : '\n' ∉ chars "title: " ++ t := by
    rw [List.mem_append]
    rintro (h | h)
    · exact absurd h (by decide)
    · exact ht h
  have hY : '\n' ∉ chars "author: " ++ a := by
    rw [List.mem_append]
    rintro (h | h)
    · exact absurd h (by decide)
    · exact ha h
  have hR : ¬chars "---" <+: chars "author: " ++ a := by
    rintro ⟨w, hw⟩
    have hw' : '-' :: (chars "--" ++ w) = 'a' :: (chars "uthor: " ++ a) := hw
    injection hw' with h1 h2
    exact absurd h1 (by decide)
  have hinf : ¬(chars "\n---") <:+: (chars "title: " ++ t ++ chars "\nauthor: " ++ a) := by
    rw [hAeq]
    have hpat : chars "\n---" = '\n' :: chars "---" := rfl
    rw [hpat]
    exact not_infix_single_sep hX hY hR
  rw [parseFrontmatter_block _ _ hinf]
  have hsplit : splitOnC '\n' (chars "title: " ++ t ++ chars "\nauthor: " ++ a) =
      [chars "title: " ++ t, chars "author: " ++ a] := by
    rw [hAeq, splitOnC_append, splitOnC_no_sep hX, splitOnC_no_sep hY]
    rfl
  rw [parseBlock, hsplit]
  simp only [List.foldl_cons, List.foldl_nil]
  rw [(applyLine_key emptyFm t).1, (applyLine_key _ a).2]
  rfl

/-- Witness for C6 (amended) at the block `title: "'A'"` / `author: 'B'`:
the title is recovered as `A` (both quote layers stripped) and the author as
`B`. -/
theorem c6_amended_values_witness :
    parseFrontmatter
        (chars "---\n" ++ (chars "title: " ++ chars "\"'A'\"" ++ chars "\nauthor: " ++
          chars "'B'") ++ chars "\n---" ++ chars "\nbody") =
      (⟨trimQuotesL (trimSpaceL (chars "\"'A'\"")),
        trimQuotesL (trimSpaceL (chars "'B'"))⟩, chars "body") :=
  c6_amended_values (chars "\"'A'\"") (chars "'B'") (by decide) (by decide)

/-- The entry list `{a.md, b/c.md, b/a.md}` of claim C7. -/
def c7Entries : List FileEntry :=
  [⟨chars "a.md", chars "a"⟩, ⟨chars "b/c.md", chars "c"⟩, ⟨chars "b/a.md", chars "a"⟩]

/-- C7, counterexample: the top-level children of the built tree are the
directory `b` and then a document named `a.md` — `insertNode` stores the full
final path segment, extension included, as the node name — so the claimed
`Document "a"` (and likewise `b`'s `Document "c"`) does not appear. -/
theorem c7_counterexample :
    (buildTree c7Entries).children.map TreeNode.name = [chars "b", chars "a.md"] ∧
      [chars "b", chars "a.md"] ≠ [chars "b", chars "a"] := by decide

/-- C7 (amended): `BuildTree` on `{a.md, b/c.md, b/a.md}` yields a root whose
children are, in order, the directory `b` then the document `a.md`
(directories before documents), with `b`'s children, in order, the documents
`a.md` then `c.md` (case-insensitively alphabetical within the group); node
names keep the file extension while routes drop it. -/
theorem c7_amended_tree :
    buildTree c7Entries =
      .node (chars "root") [] true
        [.node (chars "b") [] true
          [.node (chars "a.md") (chars "/b/a") false [],
           .node (chars "c.md") (chars "/b/c") false []],
         .node (chars "a.md") (chars "/a") false []] := by rfl

/-- C3, counterexample: the entry `a.Md` is scanner-eligible (its lowercased
name ends in `.md`), yet the document node built for it carries the route
`/a.Md` — `TrimSuffix` removes only the exact spellings `.md` and `.MD`, so
the route keeps a markup-file extension (case-insensitively). -/
theorem c3_counterexample :
    docPaths (buildTree [⟨chars "a.Md", chars "a"⟩]) = [chars "/a.Md"] ∧
      endsW (toLowerL (chars "/a.Md")) (chars ".md") = true := by decide

/-- C3 (amended): in the tree built from any entry list, every document
node's route begins with `/` and equals some entry's relative path with one
trailing `.md` (then `.MD`) suffix removed and `/` prepended; for entries
whose name ends in exactly `.md` or `.MD` (and not in a doubled extension
such as `.md.md`) this strips the extension, but mixed-case extensions like
`.Md` survive into the route. -/
theorem c3_amended_routes (entries : List FileEntry) :
    ∀ q ∈ docPaths (buildTree entries),
      startsW q (chars "/") = true ∧ ∃ e ∈ entries, q = routeOf e.relPath := by
  intro q hq
  unfold buildTree buildRaw at hq
  have h1 := docPaths_sortTree _ q hq
  have h2 := docPaths_buildFold entries (.node (chars "root") [] true []) q h1
  rcases h2 with h | ⟨e, he, heq⟩
  · rw [docPaths] at h
    simp only [if_pos] at h
    rw [docPathsL] at h
    simp at h
  · refine ⟨?_, e, he, heq⟩
    subst heq
    rw [routeOf]
    exact startsW_slash_cons _

/-- Witness for C3 (amended) at the single entry `b/a.md`, whose document
route is `/b/a`. -/
theorem c3_amended_routes_witness :
    startsW (chars "/b/a") (chars "/") = true ∧
      ∃ e ∈ [(⟨chars "b/a.md", chars "a"⟩ : FileEntry)],
        chars "/b/a" = routeOf e.relPath :=
  c3_amended_routes [⟨chars "b/a.md", chars "a"⟩] (chars "/b/a") (by decide)

/-- C4, counterexample: for a document file named `a"b.md`, the rendered tree
contains the attribute text `href="/a"b"` — the quote character of the name
reaches the output unescaped through the node's route, which `renderTreeNode`
writes without escaping (only the label `a&quot;b.md` is escaped). -/
theorem c4_counterexample :
    renderTree (buildTree [⟨chars "a\"b.md", chars "a\"b"⟩]) =
        chars
          "<ul class=\"file-tree\">\n<li><a href=\"/a\"b\" class=\"file\">a&quot;b.md</a></li>\n</ul>\n" ∧
      (chars "href=\"/a\"b\"") <:+:
        renderTree (buildTree [⟨chars "a\"b.md", chars "a\"b"⟩]) := by decide

/-- C9: for every successful scan of a well-formed directory tree (sibling
names never contain a separator), no entry in the output has any path segment
beginning with `.`: hidden files are excluded and a hidden directory prunes
its whole subtree, so files under hidden directories never appear directly or
via descendants. -/
theorem c9_scan_hidden (rootName : List Char) (cs : List FSNode)
    (hw : fsWf (.dir rootName cs) = true) :
    ∀ e ∈ scanDirectory (.dir rootName cs), ∀ seg ∈ splitOnC '/' e.relPath,
      startsW seg (chars ".") = false := by
  intro e he seg hseg
  rw [fsWf, Bool.and_eq_true] at hw
  obtain ⟨-, hcs⟩ := hw
  unfold scanDirectory at he
  by_cases hhid : startsW rootName (chars ".")
  · simp [hhid] at he
  · simp only [hhid, Bool.false_eq_true, if_false] at he
    have hmem : e ∈ walkList cs [] := mem_sortOrd.mp he
    exact walkList_segs cs [] hcs (by intro seg' h; simp at h) e hmem seg hseg

/-- Witness for C9 at a concrete tree holding a hidden directory and a hidden
file: the scan keeps only `a.md` and `sub/c.md`, and the segment `sub` of the
latter is not hidden. -/
theorem c9_scan_hidden_witness :
    scanDirectory
        (.dir (chars "docs")
          [.file (chars "a.md"), .dir (chars ".git") [.file (chars "b.md")],
           .file (chars ".hid.md"), .dir (chars "sub") [.file (chars "c.md")]]) =
      [⟨chars "a.md", chars "a"⟩, ⟨chars "sub/c.md", chars "c"⟩] ∧
    startsW (chars "sub") (chars ".") = false := by
  constructor
  · decide
  · exact c9_scan_hidden (chars "docs")
      [.file (chars "a.md"), .dir (chars ".git") [.file (chars "b.md")],
       .file (chars ".hid.md"), .dir (chars "sub") [.file (chars "c.md")]]
      (by decide) ⟨chars "sub/c.md", chars "c"⟩ (by decide) (chars "sub") (by decide)

/-- C4 (amended): every document and directory name is passed through
`escapeHTML` before emission and escaped text never contains a raw `<`, `>`
or `"` nor an `&` outside the four entities; document routes, however, are
emitted into the `href` attribute without escaping, so a markup-unsafe
character can still reach the output through a route derived from a file
name (as the counterexample shows). -/
theorem c4_amended_escaping :
    (∀ s : List Char, noRawUnsafe (escapeHTML s) = true) ∧
      (∀ (nm p : List Char) (cs : List TreeNode) (d : Nat),
        renderTreeNode (.node nm p false cs) (d + 1) =
          chars "<li>" ++ chars "<a href=\"" ++ p ++ chars "\" class=\"file\">" ++
            escapeHTML nm ++ chars "</a>" ++ chars "</li>\n") ∧
      (∀ (nm p : List Char) (d : Nat),
        renderTreeNode (.node nm p true []) (d + 1) =
          chars "<li>" ++ chars "<span class=\"folder\">" ++ escapeHTML nm ++
            chars "</span>\n" ++ chars "</li>\n") ∧
      ∀ (nm p : List Char) (c : TreeNode) (cs : List TreeNode) (d : Nat),
        renderTreeNode (.node nm p true (c :: cs)) (d + 1) =
          chars "<li>" ++ chars "<span class=\"folder\">" ++ escapeHTML nm ++
            chars "</span>\n" ++ chars "<ul>\n" ++ renderKids (c :: cs) (d + 2) ++
            chars "</ul>\n" ++ chars "</li>\n" := by
  refine ⟨noRawUnsafe_escapeHTML, ?_, ?_, ?_⟩
  · intro nm p cs d
    rw [renderTreeNode]
    simp [List.append_assoc]
  · intro nm p d
    rw [renderTreeNode]
    simp [List.append_assoc]
  · intro nm p c cs d
    rw [renderTreeNode]
    simp [List.append_assoc]

/-- C10: if the base name of the root directory itself begins with `.`, the
scan returns no entries (and no error: `filepath.Walk` turns the `SkipDir`
returned for the root into a nil error) — the hidden-name check applies to the
root node of the walk as well, pruning the entire corpus. -/
theorem c10_scan_hidden_root (name : List Char) (cs : List FSNode)
    (h : startsW name (chars ".") = true) :
    scanDirectory (.dir name cs) = [] := by
  unfold scanDirectory
  simp [h]

/-- Witness for C10 at the concrete root `.docs` containing `a.md`. -/
theorem c10_scan_hidden_root_witness :
    scanDirectory (.dir (chars ".docs") [.file (chars "a.md")]) = [] :=
  c10_scan_hidden_root (chars ".docs") [.file (chars "a.md")] (by decide)

end Gomdoc
